import Mathlib

/-!
Shallow embedding of the doogle node (package `node`, file `node.go`, plus the
address-algebra layer whose source file is not included in the repository
snapshot and is therefore modelled from the design document).

Conventions of the embedding:
* Go byte strings (`string`, `[]byte`) are `List Nat` of byte values.
* `doogleAddress` (`[20]byte`) is a `List Nat` of length 20 (big-endian bytes).
* `float64` rank arithmetic is modelled with `ℚ`.
* The SHA-1 digest is an explicit parameter `H : List Nat → DAddr` of every
  definition that hashes; theorems quantify over it and witnesses instantiate
  it with a concrete executable function.
* `sync.Map` / `map` values are association lists with `List.lookup`.
* Go mutexes and goroutines are modelled by explicit sequential state passing;
  a fan-out is a fold over the peer list in one arrival order.
* Go panics are modelled by dedicated result constructors or, for
  `updateRoutingTable`, a `panicked` flag on the node state.
-/

namespace Doogle

/-- Byte strings (`string` / `[]byte` in Go) as lists of byte values. -/
abbrev Bytes := List Nat

/-- `doogleAddress`: a 160-bit identifier, 20 big-endian bytes. -/
abbrev DAddr := List Nat

/-- `doogleAddressStr`: the `string` form of an address; same byte content. -/
abbrev DAddrStr := List Nat

/-- Modelled from the spec: `addressLength = 20` (bytes of a SHA-1 digest);
the address-algebra source file is not in the snapshot. -/
def addressLength : Nat := 20

/-- Modelled from the spec: `addressBits = 160`. -/
def addressBits : Nat := 160

/-- `alpha = 3` (node.go `const alpha`). -/
def alpha : Nat := 3

/-- `bucketSize = 20` (node.go `const bucketSize`). -/
def bucketSize : Nat := 20

/-- `maxNumGetItem = 20` (node.go `const maxNumGetItem`). -/
def maxNumGetItem : Nat := 20

/-- Modelled from the spec: byte-wise XOR of two addresses
(`xor(a,b)`: byte-wise XOR). -/
def xorAddr (a b : DAddr) : DAddr := List.zipWith Nat.xor a b

/-- Leading zero bits of a single byte (value taken mod 256): 8 minus the
bit length of the byte. -/
def byteLeadingZeros (b : Nat) : Nat :=
  let v := b % 256
  if 128 ≤ v then 0 else if 64 ≤ v then 1 else if 32 ≤ v then 2 else if 16 ≤ v then 3
  else if 8 ≤ v then 4 else if 4 ≤ v then 5 else if 2 ≤ v then 6 else if 1 ≤ v then 7
  else 8

/-- Leading zero bits of a big-endian byte string. -/
def leadingZeroBits : List Nat → Nat
  | [] => 0
  | b :: bs => if b % 256 = 0 then 8 + leadingZeroBits bs else byteLeadingZeros b

/-- Modelled from the spec: `msb(d)` is the index (0..159) of the highest set
bit of a 160-bit value, and −1 iff `d` is zero. For a 20-byte big-endian
value the highest set bit has index `159 − leadingZeroBits d`. -/
def getMostSignificantBit (d : DAddr) : Int :=
  if d.all (fun b => b % 256 = 0) then -1
  else (8 * d.length : Int) - 1 - leadingZeroBits d

/-- Modelled from the spec: `lessThanEqual` is the unsigned lexicographic
compare of two addresses (big-endian bytes). -/
def lessThanEqual : List Nat → List Nat → Bool
  | [], _ => true
  | _ :: _, [] => false
  | a :: as, b :: bs => if a < b then true else if b < a then false else lessThanEqual as bs

/-- Go's `copy(da[:], bs)` into a zeroed `[20]byte`: the first
`min (length bs) 20` bytes of `bs`, zero-padded to length 20. -/
def toDoogleAddress (bs : Bytes) : DAddr :=
  (bs ++ List.replicate addressLength 0).take addressLength

/-- Modelled from the spec: `verify(address, host, port, publicKey, nonce,
difficulty)` recomputes `SHA1(host ∥ port ∥ publicKey ∥ nonce)`, checks
equality with `address`, and checks that the leading `difficulty` bits of the
address are zero. The hash is the parameter `H`. -/
def verifyAddress (H : Bytes → DAddr) (da : DAddr) (host port pk nonce : Bytes)
    (difficulty : Int) : Bool :=
  H (host ++ port ++ pk ++ nonce) == da && decide (difficulty ≤ (leadingZeroBits da : Int))

/-- Modelled from the spec: `newAddress` / `deriveAddress` repeatedly samples a
nonce and computes `candidate = SHA1(host ∥ port ∥ publicKey ∥ nonce)` until
the leading `difficulty` bits of `candidate` are zero, returning
`(candidate, nonce)`. The random nonce stream is the explicit list `nonces`;
`none` models a search that has not yet succeeded on that stream. -/
def newAddress (H : Bytes → DAddr) (host port pk : Bytes) (difficulty : Int) :
    List Bytes → Option (DAddr × Bytes)
  | [] => none
  | nonce :: rest =>
    let candidate := H (host ++ port ++ pk ++ nonce)
    if difficulty ≤ (leadingZeroBits candidate : Int) then some (candidate, nonce)
    else newAddress H host port pk difficulty rest

/-- `doogle.NodeCertificate`. The Go code admits the node's own certificate by
pointer equality with `n.certificate`; following the design note we model that
identity with an explicit `isSelf` flag. -/
structure NodeCertificate where
  networkAddress : Bytes
  doogleAddress : Bytes
  publicKey : Bytes
  nonce : Bytes
  difficulty : Int
  isSelf : Bool
deriving DecidableEq

/-- `nodeInfo` (routing-table entry). -/
structure nodeInfo where
  dAddr : DAddr
  nAddr : Bytes
  accessedAt : Int
deriving DecidableEq

/-- `doogle.NodeInfo` wire message. -/
structure NodeInfoMsg where
  dAddr : Bytes
  nAddr : Bytes
deriving DecidableEq

/-- `item` record of the item registry. -/
structure item where
  dAddrStr : DAddrStr
  url : Bytes
  title : Bytes
  edges : List DAddrStr
  localRank : ℚ
  rankComputedCount : ℚ
deriving DecidableEq

/-- `doogle.Item` wire message. -/
structure Item where
  url : Bytes
  title : Bytes
  localRank : ℚ
deriving DecidableEq

/-- `routingBucket.popAndAppend(idx, ni)`: the Go method allocates a fresh
slice of the same length `l` and fills index `i` with `ni` when `i = l-1`,
with `prev[i]` when `i < idx`, and with `prev[i+1]` otherwise. The `getD`
default is never read for `idx < l` (see `popAndAppend_eq`). -/
def popAndAppend (idx : Nat) (ni : nodeInfo) (prev : List nodeInfo) : List nodeInfo :=
  let l := prev.length
  (List.range l).map fun i =>
    if i = l - 1 then ni
    else if i < idx then prev.getD i ni
    else prev.getD (i + 1) ni

/-- The node state: `Node` minus the fields with no bearing on the verified
behaviour (logger, crawler, keys, connection cache, PageRank queue). The
`panicked` flag records that `updateRoutingTable` hit a missing bucket, which
panics in Go. -/
structure NodeState where
  DAddr : DAddr
  routingTable : List (Int × List nodeInfo)
  dht : List (DAddrStr × List DAddrStr)
  items : List (DAddrStr × item)
  difficulty : Int
  certificate : NodeCertificate
  panicked : Bool
deriving DecidableEq

/-- Replace the binding of `k` in an association list (first occurrence), or
append a fresh binding: the update discipline of Go's `map` / `sync.Map`. -/
def assocSet {α β : Type} [BEq α] (k : α) (v : β) :
    List (α × β) → List (α × β)
  | [] => [(k, v)]
  | (k', v') :: rest => if k' == k then (k, v) :: rest else (k', v') :: assocSet k v rest

/-- First index (and entry) of the bucket whose `dAddr` equals `d`: the
`for i, n := range rb.bucket` search in `updateRoutingTable`. -/
def findFirstIdx (d : DAddr) : List nodeInfo → Option (Nat × nodeInfo)
  | [] => none
  | ni :: rest =>
    if ni.dAddr = d then some (0, ni)
    else (findFirstIdx d rest).map fun p => (p.1 + 1, p.2)

/-- `Node.updateRoutingTable`: compute the bucket index as the MSB of the XOR
distance; on a collision (`idx < 0`) return with no change (the Go code
discards the error); on a missing bucket Go panics (`panicked` flag); if the
peer is already present, refresh `accessedAt` and move it to the tail via
`popAndAppend`; otherwise append, evicting the head when the bucket is full. -/
def updateRoutingTable (st : NodeState) (info : nodeInfo) (now : Int) : NodeState :=
  let idx := getMostSignificantBit (xorAddr st.DAddr info.dAddr)
  if idx < 0 then st
  else
    match List.lookup idx st.routingTable with
    | none => { st with panicked := true }
    | some rb =>
      match findFirstIdx info.dAddr rb with
      | some (i, old) =>
        { st with routingTable :=
            assocSet idx (popAndAppend i { old with accessedAt := now } rb) st.routingTable }
      | none =>
        let ni : nodeInfo := { nAddr := info.nAddr, dAddr := info.dAddr, accessedAt := now }
        let newBucket := if rb.length < bucketSize then rb ++ [ni] else popAndAppend 0 ni rb
        { st with routingTable := assocSet idx newBucket st.routingTable }

/-- `Node.isValidSender`: the node's own certificate is always valid (Go:
pointer equality, here the `isSelf` flag); a certificate with a short address
or a difficulty below the local threshold is refused; otherwise the address is
verified (`verifyAddress` with the certificate's network address as hash
input, matching the `node.go` call) and, on success, the routing table is
updated with the caller's node info. Returns the verdict and the new state. -/
def isValidSender (H : Bytes → DAddr) (st : NodeState) (ct : NodeCertificate)
    (now : Int) : Bool × NodeState :=
  if ct.isSelf then (true, st)
  else if ct.doogleAddress.length < addressLength ∨ ct.difficulty < st.difficulty then
    (false, st)
  else
    let da := toDoogleAddress ct.doogleAddress
    if verifyAddress H da ct.networkAddress [] ct.publicKey ct.nonce ct.difficulty then
      (true, updateRoutingTable st { dAddr := da, nAddr := ct.networkAddress, accessedAt := now } now)
    else (false, st)

/-- `getNextOffset(msb, prevOffset)`: the alternating-offset generator of the
lookup walk, embedded branch for branch from node.go. -/
def getNextOffset (msb prevOffset : Int) : Except Unit Int :=
  let next0 := prevOffset * -1
  let next := if prevOffset ≤ 0 then next0 + 1 else next0
  if msb + next > 159 ∧ msb + next * -1 ≥ 0 then .ok (next * -1)
  else if msb + next < 0 ∧ msb + (next * -1 + 1) < 160 then .ok (next * -1 + 1)
  else if (msb + next > 159 ∧ msb + next * -1 < 0) ∨ (msb + next < 0 ∧ msb + (next * -1 + 1) ≥ 160) then
    .error ()
  else .ok next

/-- Result of `findNearestNode`: Go returns a slice (`found` / `nofound` for
the `nil, nil` out-of-range case) or panics on a missing bucket; `fuelOut`
marks recursion-fuel exhaustion of the embedding and never arises on the fuel
used by callers. -/
inductive FNRes where
  | found : List NodeInfoMsg → FNRes
  | nofound : FNRes
  | panicMissing : Int → FNRes
  | fuelOut : FNRes
deriving DecidableEq

/-- Comparison used by the `sort.Slice` call of `findNearestNode`:
`xor(addr_i, target) ≤ xor(addr_j, target)` lexicographically. -/
def distLe (target : DAddr) (a b : nodeInfo) : Prop :=
  lessThanEqual (xorAddr a.dAddr target) (xorAddr b.dAddr target) = true

instance (target : DAddr) : DecidableRel (distLe target) := fun a b =>
  decEq (lessThanEqual (xorAddr a.dAddr target) (xorAddr b.dAddr target)) true

/-- `Node.findNearestNode(targetAddr, msb, offset)`: look up bucket
`msb+offset` (panic if the table has no such bucket); if it is empty, step to
the next offset (returning `nil, nil` when `getNextOffset` reports
out-of-range); on the first non-empty bucket return all entries when fewer
than `alpha`, else the `alpha` entries smallest in XOR distance to the target
(Go sorts a copy with `sort.Slice`; the embedding uses `insertionSort`, a
sorted permutation as any comparison sort). -/
def findNearestNode (rt : List (Int × List nodeInfo)) (targetAddr : DAddr)
    (msb offset : Int) : Nat → FNRes
  | 0 => .fuelOut
  | fuel + 1 =>
    match List.lookup (msb + offset) rt with
    | none => .panicMissing (msb + offset)
    | some rb =>
      if rb.length = 0 then
        match getNextOffset msb offset with
        | .error _ => .nofound
        | .ok nextOffset => findNearestNode rt targetAddr msb nextOffset fuel
      else if rb.length < alpha then
        .found (rb.map fun ni => { dAddr := ni.dAddr, nAddr := ni.nAddr })
      else
        .found (((List.insertionSort (distLe targetAddr) rb).take alpha).map
          fun ni => { dAddr := ni.dAddr, nAddr := ni.nAddr })

/-- The sequence of bucket indices `msb + offset` probed by the offset walk,
starting from a given offset, up to the step where `getNextOffset` reports
out-of-range (or the fuel ends). -/
def probedChain (msb offset : Int) : Nat → List Int
  | 0 => []
  | fuel + 1 =>
    (msb + offset) ::
      match getNextOffset msb offset with
      | .error _ => []
      | .ok nextOffset => probedChain msb nextOffset fuel

/-- Fuel for `findNearestNode`: the walk probes at most 160 buckets, so 400
is never exhausted from a start in range. -/
def fnFuel : Nat := 400

/-- Result of the internal `Node.findNode`. -/
inductive FindNodeRes where
  | ok : List NodeInfoMsg → FindNodeRes
  | collision : FindNodeRes
  | panicked : Int → FindNodeRes
  | fuelOut : FindNodeRes
deriving DecidableEq

/-- `Node.findNode(targetAddr)`: MSB of the XOR distance to self; a zero
distance is the collision error; otherwise delegate to `findNearestNode` with
offset 0. Go's error-path `return nil, nil` of `findNearestNode` makes
`findNode` return an empty slice with no error. -/
def findNode (rt : List (Int × List nodeInfo)) (self target : DAddr) : FindNodeRes :=
  let msb := getMostSignificantBit (xorAddr self target)
  if msb < 0 then .collision
  else
    match findNearestNode rt target msb 0 fnFuel with
    | .found l => .ok l
    | .nofound => .ok []
    | .panicMissing i => .panicked i
    | .fuelOut => .fuelOut

/-- The two shapes of a `doogle.FindIndexReply`. -/
inductive FindIndexOutcome where
  | items : List Item → FindIndexOutcome
  | nodeInfos : List NodeInfoMsg → FindIndexOutcome
deriving DecidableEq

/-- Result of the internal `Node.findIndex`. -/
inductive FindIndexRes where
  | ok : FindIndexOutcome → FindIndexRes
  | internalErr : FindIndexRes
  | panicked : Int → FindIndexRes
  | fuelOut : FindIndexRes
deriving DecidableEq

/-- `Node.findIndex(dAddrStr)`: if the DHT holds the key, materialize the
item records found in the registry (addresses with no record are skipped, as
in the Go double type-assertion loop); otherwise pad the key to an address
and return `findNode`'s peers. -/
def findIndex (st : NodeState) (dAddrStr : DAddrStr) : FindIndexRes :=
  match List.lookup dAddrStr st.dht with
  | some itemAddresses =>
    .ok (.items (itemAddresses.filterMap fun addr =>
      (List.lookup addr st.items).map fun it =>
        { url := it.url, title := it.title, localRank := it.localRank }))
  | none =>
    match findNode st.routingTable st.DAddr (toDoogleAddress dAddrStr) with
    | .ok infos => .ok (.nodeInfos infos)
    | .collision => .internalErr
    | .panicked i => .panicked i
    | .fuelOut => .fuelOut

/-- gRPC status codes used by the handlers. -/
inductive GrpcCode where
  | InvalidArgument : GrpcCode
  | Internal : GrpcCode
deriving DecidableEq

/-- Outcome of an RPC handler: a reply, a gRPC error, a Go panic (missing
routing bucket), or embedding-fuel exhaustion. -/
inductive RpcOut (α : Type) where
  | ok : α → RpcOut α
  | err : GrpcCode → RpcOut α
  | panicked : Int → RpcOut α
  | fuelOut : RpcOut α
deriving DecidableEq

/-- `doogle.StoreItemRequest`. -/
structure StoreItemRequest where
  url : Bytes
  title : Bytes
  index : Bytes
  edgeURLs : List Bytes
  certificate : NodeCertificate
deriving DecidableEq

/-- `Node.StoreItem`: admit the sender (InvalidArgument on refusal); hash the
edge urls, the item url and the index token; load-or-create the DHT entry for
the index address and add the item address if not yet present; register the
item, copying the previous record's `localRank` on a replace; on a first
insertion schedule the crawler on the edge urls (returned as the `Bool`). -/
def StoreItem (H : Bytes → DAddr) (st : NodeState) (req : StoreItemRequest)
    (now : Int) : RpcOut Unit × NodeState × Bool :=
  let (valid, st) := isValidSender H st req.certificate now
  if !valid then (.err .InvalidArgument, st, false)
  else
    let es : List DAddrStr := req.edgeURLs.map H
    let itemAddr : DAddrStr := H req.url
    let idxAddr : DAddrStr := H req.index
    let it : item :=
      { url := req.url, dAddrStr := itemAddr, title := req.title, edges := es,
        localRank := 0, rankComputedCount := 0 }
    let cur := (List.lookup idxAddr st.dht).getD []
    let included := cur.contains it.dAddrStr
    let newEntry := if included then cur else cur ++ [it.dAddrStr]
    let st := { st with dht := assocSet idxAddr newEntry st.dht }
    match List.lookup it.dAddrStr st.items with
    | some prev =>
      (.ok (), { st with items := assocSet it.dAddrStr { it with localRank := prev.localRank } st.items },
        false)
    | none =>
      (.ok (), { st with items := assocSet it.dAddrStr it st.items }, true)

/-- `doogle.FindNodeRequest`. -/
structure FindNodeRequest where
  certificate : NodeCertificate
  doogleAddress : Bytes
deriving DecidableEq

/-- `Node.FindNode` handler: admission, then the internal `findNode` on the
padded target address; an internal `findNode` error surfaces as `Internal`. -/
def FindNodeH (H : Bytes → DAddr) (st : NodeState) (req : FindNodeRequest)
    (now : Int) : RpcOut (List NodeInfoMsg) × NodeState :=
  let (valid, st) := isValidSender H st req.certificate now
  if !valid then (.err .InvalidArgument, st)
  else
    match findNode st.routingTable st.DAddr (toDoogleAddress req.doogleAddress) with
    | .ok l => (.ok l, st)
    | .collision => (.err .Internal, st)
    | .panicked i => (.panicked i, st)
    | .fuelOut => (.fuelOut, st)

/-- `doogle.FindIndexRequest`. -/
structure FindIndexRequest where
  certificate : NodeCertificate
  doogleAddress : Bytes
deriving DecidableEq

/-- `Node.FindIndex` handler: admission, then the internal `findIndex` on the
raw request bytes taken as a `doogleAddressStr`. -/
def FindIndexH (H : Bytes → DAddr) (st : NodeState) (req : FindIndexRequest)
    (now : Int) : RpcOut FindIndexOutcome × NodeState :=
  let (valid, st) := isValidSender H st req.certificate now
  if !valid then (.err .InvalidArgument, st)
  else
    match findIndex st req.doogleAddress with
    | .ok outc => (.ok outc, st)
    | .internalErr => (.err .Internal, st)
    | .panicked i => (.panicked i, st)
    | .fuelOut => (.fuelOut, st)

/-- `Node.PingWithCertificate`: return the node's own certificate iff the
sender is admitted, else `InvalidArgument`. -/
def PingWithCertificate (H : Bytes → DAddr) (st : NodeState)
    (ct : NodeCertificate) (now : Int) : RpcOut NodeCertificate × NodeState :=
  let (valid, st) := isValidSender H st ct now
  if valid then (.ok st.certificate, st) else (.err .InvalidArgument, st)

/-- The bytes of the `"pong"` reply. -/
def pongMsg : Bytes := [112, 111, 110, 103]

/-- `Node.Ping`: unconditionally `"pong"`; no admission check. -/
def Ping (st : NodeState) (_msg : Bytes) : RpcOut Bytes × NodeState :=
  (.ok pongMsg, st)

/-- `Node.PingTo(peer)`: dial the named peer and call its
`PingWithCertificate` with our own certificate (`pingReply` is that call's
result, `none` for a dial/transport failure, which Go surfaces as
`Internal`); reply `"pong"` iff the returned certificate is admitted by
`isValidSender`, else `Internal` ("recipient is invalid"). The handler never
inspects a certificate of its own caller. -/
def PingTo (H : Bytes → DAddr) (st : NodeState)
    (pingReply : Option NodeCertificate) (now : Int) : RpcOut Bytes × NodeState :=
  match pingReply with
  | none => (.err .Internal, st)
  | some r =>
    let (valid, st) := isValidSender H st r now
    if valid then (.ok pongMsg, st) else (.err .Internal, st)

/-- An entry of `GetIndex`'s `scoreMap`: occurrence count, rank sum, and the
average filled in after the fan-out. -/
structure ScoreVal where
  num : Int
  sum : ℚ
  avg : ℚ
deriving DecidableEq

/-- Network oracle for `GetIndex`'s outbound calls, indexed by network
address: the result of a remote `FindIndex` (`none` models a dial or call
failure) and of a remote `PingWithCertificate`. -/
structure NetOracle where
  findIndexAt : Bytes → Option FindIndexOutcome
  pingCertAt : Bytes → Option NodeCertificate

/-- The merge step `GetIndex` performs for one incoming item, both when
seeding from the local result and under the fan-out mutex: a url already in
`scoreMap` accumulates `num` and `sum`; a first-seen url gets a fresh entry
and its item is appended to the result list. -/
def mergeItem (acc : List (Bytes × ScoreVal) × List Item) (it : Item) :
    List (Bytes × ScoreVal) × List Item :=
  let (scoreMap, ret) := acc
  match List.lookup it.url scoreMap with
  | some v => (assocSet it.url { v with num := v.num + 1, sum := v.sum + it.localRank } scoreMap, ret)
  | none => (scoreMap ++ [(it.url, { num := 1, sum := it.localRank, avg := 0 })], ret ++ [it])

/-- The inner loop of a fan-out goroutine that received peer infos instead of
items: ping each suggested peer with our certificate and admit the reply into
our routing table; a dial or ping failure abandons the remaining peers
(Go `return`). -/
def warmupPeers (H : Bytes → DAddr) (net : NetOracle) (now : Int) :
    NodeState → List NodeInfoMsg → NodeState
  | st, [] => st
  | st, ni :: rest =>
    match net.pingCertAt ni.nAddr with
    | none => st
    | some r => warmupPeers H net now (isValidSender H st r now).2 rest

/-- One fan-out arm of `GetIndex` for peer network address `na`: a failed
dial or remote `FindIndex` contributes nothing; an item reply is merged into
the accumulator; a peer-info reply triggers the warmup pings. -/
def fanOutStep (H : Bytes → DAddr) (net : NetOracle) (now : Int)
    (acc : List (Bytes × ScoreVal) × List Item × NodeState) (na : Bytes) :
    List (Bytes × ScoreVal) × List Item × NodeState :=
  let (scoreMap, ret, st) := acc
  match net.findIndexAt na with
  | none => (scoreMap, ret, st)
  | some (.items its) =>
    let (scoreMap, ret) := its.foldl mergeItem (scoreMap, ret)
    (scoreMap, ret, st)
  | some (.nodeInfos infos) => (scoreMap, ret, warmupPeers H net now st infos)

/-- The comparison `sort.Slice` uses on the result list: descending average
score, looked up in the final score map (every url of the list is a key of
the map; the `getD` default is never read). Go's comparator is the strict
`>`; a comparison sort with it yields a list sorted by the reflexive `≥`. -/
def byAvgDesc (scoreMap : List (Bytes × ScoreVal)) (a b : Item) : Prop :=
  ((List.lookup b.url scoreMap).getD ⟨0, 0, 0⟩).avg ≤ ((List.lookup a.url scoreMap).getD ⟨0, 0, 0⟩).avg

instance (scoreMap : List (Bytes × ScoreVal)) : DecidableRel (byAvgDesc scoreMap) := fun a b =>
  inferInstanceAs (Decidable
    (((List.lookup b.url scoreMap).getD ⟨0, 0, 0⟩).avg ≤
      ((List.lookup a.url scoreMap).getD ⟨0, 0, 0⟩).avg))

/-- `Node.GetIndex(keyword)`, with the internal score map exposed as the
third component for specification purposes (`GetIndex` below discards it).
The request carries no certificate and the handler performs no admission
check. Steps: hash the keyword (the PageRank enqueue is asynchronous and
drop-on-full, with no effect on the reply); local `findIndex`; on an item
reply seed the accumulator and collect fan-out peers with `findNode`, on a
peer reply use those peers; fan out (one arrival order); fill in
`avg = sum/num`; sort the result list by descending average. The Go slice is
pre-allocated with capacity `maxNumGetItem` but never truncated. -/
def getIndexCore (H : Bytes → DAddr) (st : NodeState) (msg : Bytes)
    (net : NetOracle) (now : Int) :
    RpcOut (List Item) × NodeState × List (Bytes × ScoreVal) :=
  let targetAddr := H msg
  let targetAddrStr : DAddrStr := targetAddr
  match findIndex st targetAddrStr with
  | .internalErr => (.err .Internal, st, [])
  | .panicked i => (.panicked i, st, [])
  | .fuelOut => (.fuelOut, st, [])
  | .ok outc =>
    let seeded :
        RpcOut (List Item) ⊕ (List (Bytes × ScoreVal) × List Item × List Bytes) :=
      match outc with
      | .items its =>
        let (scoreMap, ret) := its.foldl mergeItem ([], [])
        match findNode st.routingTable st.DAddr targetAddr with
        | .ok infos => .inr (scoreMap, ret, infos.map fun r => r.nAddr)
        | .collision => .inl (.err .Internal)
        | .panicked i => .inl (.panicked i)
        | .fuelOut => .inl .fuelOut
      | .nodeInfos infos => .inr ([], [], infos.map fun r => r.nAddr)
    match seeded with
    | .inl e => (e, st, [])
    | .inr (scoreMap, ret, nas) =>
      let (scoreMap, ret, st) := nas.foldl (fanOutStep H net now) (scoreMap, ret, st)
      let scoreMap := scoreMap.map fun p => (p.1, { p.2 with avg := p.2.sum / (p.2.num : ℚ) })
      (.ok (List.insertionSort (byAvgDesc scoreMap) ret), st, scoreMap)

/-- `Node.GetIndex` as the wire handler: reply and state. -/
def GetIndex (H : Bytes → DAddr) (st : NodeState) (msg : Bytes)
    (net : NetOracle) (now : Int) : RpcOut (List Item) × NodeState :=
  let (out, st, _) := getIndexCore H st msg net now
  (out, st)

/-! ## Helper lemmas -/

theorem assocSet_lookup_self {α β : Type} [BEq α] [LawfulBEq α] (k : α) (v : β) :
    ∀ l : List (α × β), List.lookup k (assocSet k v l) = some v := by
  intro l
  induction l with
  | nil => simp [assocSet, List.lookup]
  | cons hd tl ih =>
    obtain ⟨k', v'⟩ := hd
    by_cases h : (k' == k) = true
    · simp [assocSet, h, List.lookup]
    · have h' : (k' == k) = false := by simpa using h
      have h'' : (k == k') = false := by
        simp only [beq_eq_false_iff_ne, ne_eq] at h' ⊢
        exact fun hk => h' hk.symm
      simp only [assocSet, h', Bool.false_eq_true, if_false, List.lookup, h'']
      exact ih

theorem assocSet_lookup_other {α β : Type} [BEq α] [LawfulBEq α] (k k' : α) (v : β)
    (hne : (k' == k) = false) : ∀ l : List (α × β),
    List.lookup k' (assocSet k v l) = List.lookup k' l := by
  intro l
  induction l with
  | nil => simp [assocSet, List.lookup, hne]
  | cons hd tl ih =>
    obtain ⟨ka, va⟩ := hd
    by_cases h : (ka == k) = true
    · have hk : ka = k := by simpa using h
      subst hk
      simp [assocSet, List.lookup, hne]
    · have h' : (ka == k) = false := by simpa using h
      simp only [assocSet, h', Bool.false_eq_true, if_false, List.lookup]
      cases hbk : (k' == ka) <;> simp [ih]

/-- When the verdict is `false`, `isValidSender` performs no state change. -/
theorem isValidSender_false_state (H : Bytes → DAddr) (st : NodeState)
    (ct : NodeCertificate) (now : Int)
    (h : (isValidSender H st ct now).1 = false) :
    (isValidSender H st ct now).2 = st := by
  unfold isValidSender at *
  by_cases h1 : ct.isSelf
  · simp [h1] at h
  · simp only [if_neg h1] at *
    by_cases h2 : ct.doogleAddress.length < addressLength ∨ ct.difficulty < st.difficulty
    · simp [h2]
    · simp only [if_neg h2] at *
      by_cases h3 : verifyAddress H (toDoogleAddress ct.doogleAddress) ct.networkAddress []
          ct.publicKey ct.nonce ct.difficulty
      · simp [h3] at h
      · simp [h3]

/-! ## C9 -/

/-- C9: for every hash function, host, port, public key and difficulty, if the
proof-of-work search `newAddress` returns an address/nonce pair, then
`verifyAddress` accepts that address with the same inputs, the returned nonce
and the same difficulty, and the first `difficulty` bits of the address are
zero (`difficulty ≤ leadingZeroBits`). -/
theorem newAddress_roundtrip (H : Bytes → DAddr) (host port pk : Bytes)
    (d : Int) (nonces : List Bytes) (a : DAddr) (nonce : Bytes)
    (h : newAddress H host port pk d nonces = some (a, nonce)) :
    verifyAddress H a host port pk nonce d = true ∧ d ≤ (leadingZeroBits a : Int) := by
  induction nonces with
  | nil => simp [newAddress] at h
  | cons n rest ih =>
    simp only [newAddress] at h
    by_cases hc : d ≤ (leadingZeroBits (H (host ++ port ++ pk ++ n)) : Int)
    · simp only [if_pos hc, Option.some.injEq, Prod.mk.injEq] at h
      obtain ⟨ha, hn⟩ := h
      subst ha; subst hn
      refine ⟨?_, hc⟩
      simp only [verifyAddress, beq_self_eq_true, Bool.true_and]
      exact decide_eq_true hc
    · simp only [if_neg hc] at h
      exact ih h

/-- Witness for C9 at a concrete hash, inputs and nonce stream. -/
theorem newAddress_roundtrip_witness :
    verifyAddress (fun _ => List.replicate 20 0) (List.replicate 20 0) [1] [2] [] [7] 3 = true ∧
      (3 : Int) ≤ (leadingZeroBits (List.replicate 20 0) : Int) :=
  newAddress_roundtrip (fun _ => List.replicate 20 0) [1] [2] [] 3 [[7]]
    (List.replicate 20 0) [7] (by decide)

/-! ## StoreItem: C7 and C8 -/

theorem updateRoutingTable_dht (st : NodeState) (info : nodeInfo) (now : Int) :
    (updateRoutingTable st info now).dht = st.dht := by
  simp only [updateRoutingTable]
  split
  · rfl
  · split
    · rfl
    · split <;> rfl

theorem updateRoutingTable_items (st : NodeState) (info : nodeInfo) (now : Int) :
    (updateRoutingTable st info now).items = st.items := by
  simp only [updateRoutingTable]
  split
  · rfl
  · split
    · rfl
    · split <;> rfl

theorem updateRoutingTable_difficulty (st : NodeState) (info : nodeInfo) (now : Int) :
    (updateRoutingTable st info now).difficulty = st.difficulty := by
  simp only [updateRoutingTable]
  split
  · rfl
  · split
    · rfl
    · split <;> rfl

theorem isValidSender_dht (H : Bytes → DAddr) (st : NodeState)
    (ct : NodeCertificate) (now : Int) :
    (isValidSender H st ct now).2.dht = st.dht := by
  simp only [isValidSender]
  split
  · rfl
  · split
    · rfl
    · split
      · exact updateRoutingTable_dht ..
      · rfl

theorem isValidSender_items (H : Bytes → DAddr) (st : NodeState)
    (ct : NodeCertificate) (now : Int) :
    (isValidSender H st ct now).2.items = st.items := by
  simp only [isValidSender]
  split
  · rfl
  · split
    · rfl
    · split
      · exact updateRoutingTable_items ..
      · rfl

theorem isValidSender_difficulty (H : Bytes → DAddr) (st : NodeState)
    (ct : NodeCertificate) (now : Int) :
    (isValidSender H st ct now).2.difficulty = st.difficulty := by
  simp only [isValidSender]
  split
  · rfl
  · split
    · rfl
    · split
      · exact updateRoutingTable_difficulty ..
      · rfl

/-- The verdict of `isValidSender` depends on the state only through the local
difficulty threshold. -/
theorem isValidSender_fst_congr (H : Bytes → DAddr) (st st' : NodeState)
    (ct : NodeCertificate) (now now' : Int)
    (hd : st'.difficulty = st.difficulty) :
    (isValidSender H st' ct now').1 = (isValidSender H st ct now).1 := by
  simp only [isValidSender]
  rw [hd]
  by_cases h1 : ct.isSelf
  · simp [h1]
  · simp only [if_neg h1]
    by_cases h2 : ct.doogleAddress.length < addressLength ∨ ct.difficulty < st.difficulty
    · simp [h2]
    · simp only [if_neg h2]
      by_cases h3 : verifyAddress H (toDoogleAddress ct.doogleAddress) ct.networkAddress []
          ct.publicKey ct.nonce ct.difficulty = true
      · simp [h3]
      · simp [h3]

/-- Shape of the state after a `StoreItem` accepted by admission: the DHT entry
for the index address and the difficulty field. -/
theorem StoreItem_dht (H : Bytes → DAddr) (st : NodeState) (req : StoreItemRequest)
    (now : Int) (hv : (isValidSender H st req.certificate now).1 = true) :
    ((StoreItem H st req now).2.1).dht =
      assocSet (H req.index)
        (if ((List.lookup (H req.index) st.dht).getD []).contains (H req.url) then
          (List.lookup (H req.index) st.dht).getD []
         else ((List.lookup (H req.index) st.dht).getD []) ++ [H req.url])
        st.dht ∧
    ((StoreItem H st req now).2.1).difficulty = st.difficulty := by
  have hdht := isValidSender_dht H st req.certificate now
  have hdiff := isValidSender_difficulty H st req.certificate now
  have hitems := isValidSender_items H st req.certificate now
  rcases hiv : isValidSender H st req.certificate now with ⟨b, stv⟩
  rw [hiv] at hv hdht hdiff hitems
  simp only at hv hdht hdiff hitems
  subst hv
  simp only [StoreItem, hiv, Bool.not_true, Bool.false_eq_true, if_false]
  rw [hdht] at *
  cases hlook : List.lookup (H req.url) stv.items <;>
    simp [hlook, hdiff, hitems]

/-- C7: `StoreItem` is idempotent on `(indexAddr, itemAddr)` — an immediately
repeated call with the same url and index token leaves the item-address set
stored under the index address unchanged (in particular it is not enlarged). -/
theorem storeItem_idempotent (H : Bytes → DAddr) (st : NodeState)
    (req : StoreItemRequest) (now now' : Int)
    (hv : (isValidSender H st req.certificate now).1 = true) :
    List.lookup (H req.index)
        ((StoreItem H ((StoreItem H st req now).2.1) req now').2.1).dht =
      List.lookup (H req.index) ((StoreItem H st req now).2.1).dht := by
  obtain ⟨hd1, hdiff1⟩ := StoreItem_dht H st req now hv
  have hv2 : (isValidSender H ((StoreItem H st req now).2.1) req.certificate now').1 = true := by
    rw [isValidSender_fst_congr H st ((StoreItem H st req now).2.1) req.certificate now now' hdiff1]
    exact hv
  obtain ⟨hd2, _⟩ := StoreItem_dht H ((StoreItem H st req now).2.1) req now' hv2
  set A := H req.url
  set K := H req.index
  set cur := (List.lookup K st.dht).getD []
  set E1 := if cur.contains A then cur else cur ++ [A] with hE1
  have hmem : E1.contains A = true := by
    by_cases hc : cur.contains A
    · rw [hE1, if_pos hc]; exact hc
    · rw [hE1, if_neg hc]
      simp [List.contains_eq_any_beq]
  have hlook1 : List.lookup K ((StoreItem H st req now).2.1).dht = some E1 := by
    rw [hd1]
    exact assocSet_lookup_self K E1 st.dht
  rw [hd2, hlook1]
  simp only [Option.getD_some, hmem, if_true]
  exact assocSet_lookup_self K E1 ((StoreItem H st req now).2.1).dht

/-- Concrete hash used by witnesses: constant all-zero digest. -/
def H0 : Bytes → DAddr := fun _ => List.replicate 20 0

/-- Concrete self certificate used by witnesses. -/
def selfCert : NodeCertificate :=
  { networkAddress := [], doogleAddress := [], publicKey := [], nonce := [],
    difficulty := 0, isSelf := true }

/-- Concrete node state used by witnesses. -/
def st0 : NodeState :=
  { DAddr := 1 :: List.replicate 19 0, routingTable := [], dht := [], items := [],
    difficulty := 0, certificate := selfCert, panicked := false }

/-- Concrete StoreItem request used by witnesses. -/
def req0 : StoreItemRequest :=
  { url := [5], title := [6], index := [7], edgeURLs := [], certificate := selfCert }

/-- Witness for C7: the idempotence theorem applied at a concrete state and
request. -/
theorem storeItem_idempotent_witness :
    List.lookup (H0 req0.index)
        ((StoreItem H0 ((StoreItem H0 st0 req0 0).2.1) req0 1).2.1).dht =
      List.lookup (H0 req0.index) ((StoreItem H0 st0 req0 0).2.1).dht :=
  storeItem_idempotent H0 st0 req0 0 1 (by decide)

/-- C8: when `StoreItem` overwrites an item record already registered under
the same item address, the stored record keeps the prior record's
`localRank` while url, title and edges come from the latest request, and no
edge-url crawl is scheduled (the crawl flag of the embedding is `false`;
Go only spawns `crawler.Crawl` in the first-insertion branch). -/
theorem storeItem_replace_semantics (H : Bytes → DAddr) (st : NodeState)
    (req : StoreItemRequest) (now : Int) (prev : item)
    (hv : (isValidSender H st req.certificate now).1 = true)
    (hprev : List.lookup (H req.url) st.items = some prev) :
    List.lookup (H req.url) ((StoreItem H st req now).2.1).items =
      some { dAddrStr := H req.url, url := req.url, title := req.title,
             edges := req.edgeURLs.map H, localRank := prev.localRank,
             rankComputedCount := 0 } ∧
    (StoreItem H st req now).2.2 = false := by
  have hitems := isValidSender_items H st req.certificate now
  rcases hiv : isValidSender H st req.certificate now with ⟨b, stv⟩
  rw [hiv] at hv hitems
  simp only at hv hitems
  subst hv
  simp only [StoreItem, hiv, Bool.not_true, Bool.false_eq_true, if_false]
  rw [hitems]
  simp only [hprev]
  constructor
  · exact assocSet_lookup_self ..
  · trivial

/-- Concrete prior item record for the C8 witness. -/
def prevItem : item :=
  { dAddrStr := List.replicate 20 0, url := [9], title := [9], edges := [],
    localRank := 5, rankComputedCount := 2 }

/-- Concrete node state with a registered item for the C8 witness. -/
def stItems : NodeState :=
  { DAddr := 1 :: List.replicate 19 0, routingTable := [], dht := [],
    items := [(List.replicate 20 0, prevItem)],
    difficulty := 0, certificate := selfCert, panicked := false }

/-- Witness for C8 at a concrete state and request. -/
theorem storeItem_replace_semantics_witness :
    List.lookup (H0 req0.url) ((StoreItem H0 stItems req0 0).2.1).items =
      some { dAddrStr := H0 req0.url, url := req0.url, title := req0.title,
             edges := req0.edgeURLs.map H0, localRank := prevItem.localRank,
             rankComputedCount := 0 } ∧
    (StoreItem H0 stItems req0 0).2.2 = false :=
  storeItem_replace_semantics H0 stItems req0 0 prevItem (by decide) (by decide)

/-! ## RPC admission: C1 -/

/-- C1 (amended): the four certificate-carrying RPCs — `StoreItem`,
`FindNode`, `FindIndex` and `PingWithCertificate` — refuse a sender not
admitted by `isValidSender` with `InvalidArgument` and perform no other
effect (the state is unchanged and no crawl is scheduled). `PingTo` and
`GetIndex` carry no caller certificate and perform no such check (see the
counterexample). -/
theorem rpc_refuse_unadmitted (H : Bytes → DAddr) (st : NodeState)
    (ct : NodeCertificate) (now : Int)
    (hv : (isValidSender H st ct now).1 = false) :
    (∀ url title index edges,
      StoreItem H st
          { url := url, title := title, index := index, edgeURLs := edges, certificate := ct }
          now = (.err .InvalidArgument, st, false)) ∧
    (∀ target, FindNodeH H st { certificate := ct, doogleAddress := target } now =
      (.err .InvalidArgument, st)) ∧
    (∀ key, FindIndexH H st { certificate := ct, doogleAddress := key } now =
      (.err .InvalidArgument, st)) ∧
    PingWithCertificate H st ct now = (.err .InvalidArgument, st) := by
  have hst := isValidSender_false_state H st ct now hv
  rcases hiv : isValidSender H st ct now with ⟨b, stv⟩
  rw [hiv] at hv hst
  simp only at hv hst
  subst hv; subst hst
  refine ⟨fun url title index edges => ?_, fun target => ?_, fun key => ?_, ?_⟩ <;>
    simp [StoreItem, FindNodeH, FindIndexH, PingWithCertificate, hiv]

/-- An unadmitted certificate: not the node's own, address shorter than 20
bytes, so `isValidSender` refuses it. -/
def badCert : NodeCertificate :=
  { networkAddress := [3], doogleAddress := [], publicKey := [], nonce := [],
    difficulty := 0, isSelf := false }

/-- Witness for the amended C1 at a concrete unadmitted certificate. -/
theorem rpc_refuse_unadmitted_witness :
    StoreItem H0 st0
        { url := [5], title := [6], index := [7], edgeURLs := [], certificate := badCert } 0 =
      (.err .InvalidArgument, st0, false) :=
  (rpc_refuse_unadmitted H0 st0 badCert 0 (by decide)).1 [5] [6] [7] []

/-- A routing-table peer for the concrete `GetIndex` run. -/
def peerNi : nodeInfo :=
  { dAddr := List.replicate 20 2, nAddr := [9], accessedAt := 0 }

/-- Concrete node state with one known peer in bucket 152 (the MSB class of
the XOR distance between its address and `H0`'s constant digest). -/
def st1 : NodeState :=
  { DAddr := 1 :: List.replicate 19 0, routingTable := [(152, [peerNi])], dht := [],
    items := [], difficulty := 0, certificate := selfCert, panicked := false }

/-- Network oracle on which every outbound call fails. -/
def net0 : NetOracle :=
  { findIndexAt := fun _ => none, pingCertAt := fun _ => none }

/-- Counterexample to C1 as stated: `PingTo` answers an unadmitted
certificate (here: the reply certificate it validates — its request carries
no caller certificate at all) with `Internal`, not `InvalidArgument`; and
`GetIndex` carries no certificate and succeeds without any admission check,
returning a reply rather than `InvalidArgument`. -/
theorem rpc_admission_counterexample :
    PingTo H0 st0 (some badCert) 0 = (.err .Internal, st0) ∧
    GrpcCode.Internal ≠ GrpcCode.InvalidArgument ∧
    GetIndex H0 st1 [4] net0 7 = (.ok [], st1) := by
  refine ⟨by decide, by decide, ?_⟩
  decide

/-! ## Admission: C3 -/

/-- The XOR distance of an address to itself is all-zero, so its MSB index is
−1 (the collision case). -/
theorem getMostSignificantBit_xor_self (a : DAddr) :
    getMostSignificantBit (xorAddr a a) = -1 := by
  unfold getMostSignificantBit xorAddr
  rw [if_pos]
  induction a with
  | nil => simp
  | cons b bs ih =>
    simp only [List.zipWith_cons_cons, List.all_cons, ih, Bool.and_true]
    have hx : Nat.xor b b = 0 := Nat.xor_self b
    rw [hx]
    simp

/-- Touching the routing table with the node's own address is a no-op: the
collision branch returns the state unchanged. -/
theorem updateRoutingTable_self (st : NodeState) (info : nodeInfo) (now : Int)
    (h : info.dAddr = st.DAddr) :
    updateRoutingTable st info now = st := by
  simp only [updateRoutingTable, h, getMostSignificantBit_xor_self]
  norm_num

/-- C3: for a certificate whose declared address has the wire length of 20
bytes and which, when it is the node's own, carries the node's own address
(as `NewNode` constructs it), `isValidSender` returns `true` iff the
certificate is the node's own or its declared difficulty is at least the
local minimum and the address verifies; and whenever it returns `true` the
resulting state is exactly the routing table touched with the caller's
`(nodeAddress, networkAddress)` (for the node's own certificate that touch
is the collision no-op). -/
theorem isValidSender_spec (H : Bytes → DAddr) (st : NodeState)
    (ct : NodeCertificate) (now : Int)
    (hlen : ct.doogleAddress.length = addressLength)
    (hself : ct.isSelf = true → toDoogleAddress ct.doogleAddress = st.DAddr) :
    ((isValidSender H st ct now).1 = true ↔
      (ct.isSelf = true ∨ (st.difficulty ≤ ct.difficulty ∧
        verifyAddress H (toDoogleAddress ct.doogleAddress) ct.networkAddress []
          ct.publicKey ct.nonce ct.difficulty = true))) ∧
    ((isValidSender H st ct now).1 = true →
      (isValidSender H st ct now).2 =
        updateRoutingTable st
          { dAddr := toDoogleAddress ct.doogleAddress, nAddr := ct.networkAddress,
            accessedAt := now } now) := by
  by_cases h1 : ct.isSelf
  · constructor
    · simp [isValidSender, h1]
    · intro _
      simp only [isValidSender, h1, if_pos]
      rw [updateRoutingTable_self st _ now (hself h1)]
  · have hns : ct.isSelf = false := by simpa using h1
    simp only [isValidSender, hns, Bool.false_eq_true, if_false]
    have hlf : ¬ ct.doogleAddress.length < addressLength := by omega
    by_cases h2 : ct.difficulty < st.difficulty
    · have : (ct.doogleAddress.length < addressLength ∨ ct.difficulty < st.difficulty) := Or.inr h2
      simp only [if_pos this]
      constructor
      · constructor
        · intro hf; exact absurd hf (by simp)
        · rintro (hc | ⟨hd, _⟩)
          · exact absurd hc (by simp [hns])
          · omega
      · intro hf; exact absurd hf (by simp)
    · have hcond : ¬ (ct.doogleAddress.length < addressLength ∨ ct.difficulty < st.difficulty) := by
        rintro (h | h) <;> [exact hlf h; exact h2 h]
      simp only [if_neg hcond]
      by_cases h3 : verifyAddress H (toDoogleAddress ct.doogleAddress) ct.networkAddress []
          ct.publicKey ct.nonce ct.difficulty = true
      · simp only [if_pos h3]
        constructor
        · simp only [true_iff]
          exact Or.inr ⟨by omega, h3⟩
        · intro _; trivial
      · simp only [if_neg h3]
        constructor
        · constructor
          · intro hf; exact absurd hf (by simp)
          · rintro (hc | ⟨_, hv⟩)
            · exact absurd hc (by simp [hns])
            · exact absurd hv h3
        · intro hf; exact absurd hf (by simp)

/-- Concrete self-coherent certificate and state for the C3 witness. -/
def ctW : NodeCertificate :=
  { networkAddress := [], doogleAddress := List.replicate 20 0, publicKey := [],
    nonce := [], difficulty := 0, isSelf := true }

/-- Concrete node state owning `ctW` for the C3 witness. -/
def stW : NodeState :=
  { DAddr := List.replicate 20 0, routingTable := [], dht := [], items := [],
    difficulty := 0, certificate := ctW, panicked := false }

/-- Witness for C3 at a concrete self certificate. -/
theorem isValidSender_spec_witness :
    ((isValidSender H0 stW ctW 0).1 = true ↔
      (ctW.isSelf = true ∨ (stW.difficulty ≤ ctW.difficulty ∧
        verifyAddress H0 (toDoogleAddress ctW.doogleAddress) ctW.networkAddress []
          ctW.publicKey ctW.nonce ctW.difficulty = true))) ∧
    ((isValidSender H0 stW ctW 0).1 = true →
      (isValidSender H0 stW ctW 0).2 =
        updateRoutingTable stW
          { dAddr := toDoogleAddress ctW.doogleAddress, nAddr := ctW.networkAddress,
            accessedAt := 0 } 0) :=
  isValidSender_spec H0 stW ctW 0 (by decide) (by decide)

/-! ## Routing bucket discipline: C6 -/

/-- The Go `popAndAppend` loop computes: drop the entry at `idx`, append `ni`
at the tail (for an in-range `idx`, which holds at both call sites). -/
theorem popAndAppend_eq (idx : Nat) (ni : nodeInfo) (prev : List nodeInfo)
    (h : idx < prev.length) :
    popAndAppend idx ni prev = prev.take idx ++ prev.drop (idx + 1) ++ [ni] := by
  have hta : (prev.take idx).length = idx := by rw [List.length_take]; omega
  apply List.ext_getElem
  · simp only [popAndAppend, List.length_map, List.length_range, List.length_append,
      List.length_take, List.length_drop, List.length_cons, List.length_nil]
    omega
  · intro i h1 h2
    simp only [popAndAppend, List.length_map, List.length_range] at h1
    simp only [popAndAppend, List.getElem_map, List.getElem_range]
    have hlen2 : (prev.take idx ++ prev.drop (idx + 1)).length = prev.length - 1 := by
      simp only [List.length_append, List.length_take, List.length_drop]
      omega
    by_cases hlt : i < idx
    · have hne : ¬ i = prev.length - 1 := by omega
      rw [if_neg hne, if_pos hlt]
      rw [List.getElem_append_left (by rw [hlen2]; omega)]
      rw [List.getElem_append_left (by rw [hta]; omega)]
      rw [List.getElem_take]
      exact List.getD_eq_getElem prev ni h1
    · by_cases hi : i = prev.length - 1
      · rw [if_pos hi]
        rw [List.getElem_append_right (by rw [hlen2]; omega)]
        simp
      · rw [if_neg hi, if_neg hlt]
        rw [List.getElem_append_left (by rw [hlen2]; omega)]
        rw [List.getElem_append_right (by rw [hta]; omega)]
        rw [List.getElem_drop]
        rw [List.getD_eq_getElem prev ni (show i + 1 < prev.length by omega)]
        congr 1
        rw [hta]
        omega

/-- `findFirstIdx` returns the first index whose entry has the sought
address: the index is in range, the entry is the element there, and its
address is the sought one. -/
theorem findFirstIdx_spec (d : DAddr) :
    ∀ l : List nodeInfo, ∀ i old, findFirstIdx d l = some (i, old) →
      ∃ h : i < l.length, l.get ⟨i, h⟩ = old ∧ old.dAddr = d := by
  intro l
  induction l with
  | nil => intro i old h; simp [findFirstIdx] at h
  | cons ni rest ih =>
    intro i old h
    by_cases hd : ni.dAddr = d
    · simp only [findFirstIdx, if_pos hd, Option.some.injEq, Prod.mk.injEq] at h
      obtain ⟨hi, ho⟩ := h
      subst hi; subst ho
      exact ⟨by simp, rfl, hd⟩
    · simp only [findFirstIdx, if_neg hd] at h
      cases hrec : findFirstIdx d rest with
      | none =>
        rw [hrec] at h
        simp at h
      | some p =>
        rw [hrec] at h
        obtain ⟨ip, op⟩ := p
        simp only [Option.map_some', Option.some.injEq, Prod.mk.injEq] at h
        obtain ⟨hi, ho⟩ := h
        obtain ⟨hlt, hget, haddr⟩ := ih ip op hrec
        subst ho
        have hieq : i = ip + 1 := by omega
        subst hieq
        refine ⟨by simp only [List.length_cons]; omega, ?_, haddr⟩
        simpa using hget

theorem popAndAppend_length (idx : Nat) (ni : nodeInfo) (prev : List nodeInfo) :
    (popAndAppend idx ni prev).length = prev.length := by
  simp [popAndAppend]

/-- C6: the k-bucket discipline of `updateRoutingTable` on the bucket at the
computed index. (a) Touching a peer already present removes its first
occurrence and appends it at the tail with a refreshed `accessedAt`; the
bucket's size and its multiset of peer addresses are unchanged. (b) Inserting
a new peer into a bucket holding `bucketSize = 20` entries removes the head
(the least-recently-seen peer) and appends the new peer at the tail. (c) A
bucket within capacity stays within capacity: the result never exceeds 20
entries. -/
theorem routingBucket_lru (st : NodeState) (info : nodeInfo) (now : Int)
    (idx : Int) (rb : List nodeInfo)
    (hidx : idx = getMostSignificantBit (xorAddr st.DAddr info.dAddr))
    (hnn : 0 ≤ idx)
    (hrb : List.lookup idx st.routingTable = some rb) :
    (∀ i old, findFirstIdx info.dAddr rb = some (i, old) →
      List.lookup idx (updateRoutingTable st info now).routingTable =
        some (rb.take i ++ rb.drop (i + 1) ++ [{ old with accessedAt := now }]) ∧
      (rb.take i ++ rb.drop (i + 1) ++ [{ old with accessedAt := now }]).length = rb.length ∧
      ((rb.take i ++ rb.drop (i + 1) ++ [{ old with accessedAt := now }]).map nodeInfo.dAddr).Perm
        (rb.map nodeInfo.dAddr)) ∧
    (findFirstIdx info.dAddr rb = none → rb.length = bucketSize →
      List.lookup idx (updateRoutingTable st info now).routingTable =
        some (rb.drop 1 ++ [{ dAddr := info.dAddr, nAddr := info.nAddr, accessedAt := now }])) ∧
    (rb.length ≤ bucketSize →
      ∀ rb', List.lookup idx (updateRoutingTable st info now).routingTable = some rb' →
        rb'.length ≤ bucketSize) := by
  have hnlt : ¬ idx < 0 := by omega
  refine ⟨?_, ?_, ?_⟩
  · intro i old hfind
    obtain ⟨hi, hget, haddr⟩ := findFirstIdx_spec info.dAddr rb i old hfind
    have hupd : (updateRoutingTable st info now).routingTable =
        assocSet idx (popAndAppend i { old with accessedAt := now } rb) st.routingTable := by
      simp only [updateRoutingTable, ← hidx, if_neg hnlt, hrb, hfind]
    rw [hupd, popAndAppend_eq i _ rb hi]
    refine ⟨assocSet_lookup_self .., ?_, ?_⟩
    · simp only [List.length_append, List.length_take, List.length_drop, List.length_cons,
        List.length_nil]
      omega
    · have hsplit : rb.take i ++ rb.get ⟨i, hi⟩ :: rb.drop (i + 1) = rb := by
        rw [List.get_eq_getElem, List.getElem_cons_drop]
        exact List.take_append_drop i rb
      conv_rhs => rw [← hsplit]
      rw [hget]
      simp only [List.map_append, List.map_cons, List.map_nil]
      exact (List.perm_append_comm).trans
        (@List.perm_middle _ old.dAddr (List.map nodeInfo.dAddr (rb.take i))
          (List.map nodeInfo.dAddr (rb.drop (i + 1)))).symm
  · intro hnone hfull
    have hupd : (updateRoutingTable st info now).routingTable =
        assocSet idx
          (popAndAppend 0 { dAddr := info.dAddr, nAddr := info.nAddr, accessedAt := now } rb)
          st.routingTable := by
      simp only [updateRoutingTable, ← hidx, if_neg hnlt, hrb, hnone,
        if_neg (show ¬ rb.length < bucketSize by omega)]
    rw [hupd, popAndAppend_eq 0 _ rb (by simp only [hfull, bucketSize]; omega)]
    simp only [List.take_zero, List.nil_append, Nat.zero_add]
    exact assocSet_lookup_self ..
  · intro hle rb' hlook'
    cases hfind : findFirstIdx info.dAddr rb with
    | some p =>
      obtain ⟨i, old⟩ := p
      have hupd : (updateRoutingTable st info now).routingTable =
          assocSet idx (popAndAppend i { old with accessedAt := now } rb) st.routingTable := by
        simp only [updateRoutingTable, ← hidx, if_neg hnlt, hrb, hfind]
      rw [hupd, assocSet_lookup_self] at hlook'
      injection hlook' with h'
      subst h'
      rw [popAndAppend_length]
      exact hle
    | none =>
      by_cases hfull : rb.length < bucketSize
      · have hupd : (updateRoutingTable st info now).routingTable =
            assocSet idx (rb ++ [{ dAddr := info.dAddr, nAddr := info.nAddr, accessedAt := now }])
              st.routingTable := by
          simp only [updateRoutingTable, ← hidx, if_neg hnlt, hrb, hfind, if_pos hfull]
        rw [hupd, assocSet_lookup_self] at hlook'
        injection hlook' with h'
        subst h'
        simp only [List.length_append, List.length_cons, List.length_nil]
        omega
      · have hupd : (updateRoutingTable st info now).routingTable =
            assocSet idx
              (popAndAppend 0 { dAddr := info.dAddr, nAddr := info.nAddr, accessedAt := now } rb)
              st.routingTable := by
          simp only [updateRoutingTable, ← hidx, if_neg hnlt, hrb, hfind, if_neg hfull]
        rw [hupd, assocSet_lookup_self] at hlook'
        injection hlook' with h'
        subst h'
        rw [popAndAppend_length]
        exact hle

/-- Peer already present in the C6 witness bucket. -/
def niC6 : nodeInfo := { dAddr := List.replicate 20 1, nAddr := [8], accessedAt := 0 }

/-- Second peer of the C6 witness bucket. -/
def niC6b : nodeInfo := { dAddr := List.replicate 20 3, nAddr := [8, 1], accessedAt := 0 }

/-- Concrete node state for the C6 witness: bucket 152 holds two peers. -/
def stC6 : NodeState :=
  { DAddr := List.replicate 20 0, routingTable := [(152, [niC6, niC6b])], dht := [],
    items := [], difficulty := 0, certificate := selfCert, panicked := false }

/-- Witness for C6: touching the first of two peers moves it to the tail with
a refreshed timestamp, preserving size and address membership. -/
theorem routingBucket_lru_witness :
    List.lookup 152 (updateRoutingTable stC6
        { dAddr := List.replicate 20 1, nAddr := [7], accessedAt := 5 } 5).routingTable =
      some ([niC6, niC6b].take 0 ++ [niC6, niC6b].drop 1 ++ [{ niC6 with accessedAt := 5 }]) ∧
    ([niC6, niC6b].take 0 ++ [niC6, niC6b].drop 1 ++ [{ niC6 with accessedAt := 5 }]).length =
      [niC6, niC6b].length ∧
    (([niC6, niC6b].take 0 ++ [niC6, niC6b].drop 1 ++
        [{ niC6 with accessedAt := 5 }]).map nodeInfo.dAddr).Perm
      ([niC6, niC6b].map nodeInfo.dAddr) :=
  (routingBucket_lru stC6 { dAddr := List.replicate 20 1, nAddr := [7], accessedAt := 5 } 5
    152 [niC6, niC6b] (by decide) (by decide) (by decide)).1 0 niC6 (by decide)

/-! ## Offset walk safety: C10 -/

/-- Every offset `getNextOffset` returns keeps the probed bucket index
`msb + next` inside `[0, 159]`, for any starting MSB in range. -/
theorem getNextOffset_ok_range (msb prev next : Int) (h0 : 0 ≤ msb) (h159 : msb ≤ 159)
    (h : getNextOffset msb prev = .ok next) : 0 ≤ msb + next ∧ msb + next ≤ 159 := by
  simp only [getNextOffset] at h
  by_cases hp : prev ≤ 0 <;>
    [rw [if_pos hp] at h; rw [if_neg hp] at h] <;>
    split_ifs at h with h1 h2 h3 <;>
    first
      | (simp only [Except.ok.injEq] at h; omega)
      | (exact absurd h (by simp))

/-- On a routing table with a bucket for every index in `[0, 159]`,
`findNearestNode` never reaches the missing-bucket panic, for any fuel. -/
theorem findNearestNode_no_panic (rt : List (Int × List nodeInfo))
    (hrt : ∀ j : Int, 0 ≤ j → j ≤ 159 → ∃ b, List.lookup j rt = some b)
    (target : DAddr) :
    ∀ fuel msb off : _, 0 ≤ msb → msb ≤ 159 → 0 ≤ msb + off → msb + off ≤ 159 →
      ∀ i, findNearestNode rt target msb off fuel ≠ .panicMissing i := by
  intro fuel
  induction fuel with
  | zero =>
    intro msb off _ _ _ _ i
    simp [findNearestNode]
  | succ f ih =>
    intro msb off h0 h159 ho0 ho159 i
    obtain ⟨b, hb⟩ := hrt (msb + off) ho0 ho159
    simp only [findNearestNode, hb]
    by_cases hlen : b.length = 0
    · rw [if_pos hlen]
      cases hno : getNextOffset msb off with
      | error e => simp
      | ok nxt =>
        obtain ⟨hn0, hn159⟩ := getNextOffset_ok_range msb off nxt h0 h159 hno
        exact ih msb nxt h0 h159 hn0 hn159 i
    · rw [if_neg hlen]
      by_cases halpha : b.length < alpha <;> simp [halpha]

/-- The routing table `NewNode` builds: one (empty) bucket for every index
`i < addressBits = 160`. -/
def newNodeRoutingTable : List (Int × List nodeInfo) :=
  (List.range addressBits).map fun i => ((i : Int), [])

theorem lookup_rangeMap (j : Nat) :
    ∀ len s : Nat, s ≤ j → j < s + len →
      List.lookup ((j : Int))
        ((List.range' s len).map fun i => ((i : Int), ([] : List nodeInfo))) = some [] := by
  intro len
  induction len with
  | zero => intro s h1 h2; omega
  | succ n ih =>
    intro s h1 h2
    rw [List.range'_succ]
    by_cases hj : j = s
    · subst hj
      simp [List.lookup]
    · have hbeq : (((j : Int)) == ((s : Int))) = false := by
        rw [beq_eq_false_iff_ne]
        intro hc
        exact hj (by omega)
      simp only [List.map_cons, List.lookup, hbeq]
      exact ih (s + 1) (by omega) (by omega)

theorem newNodeRoutingTable_lookup (j : Int) (h0 : 0 ≤ j) (h159 : j ≤ 159) :
    List.lookup j newNodeRoutingTable = some ([] : List nodeInfo) := by
  have hj : j = ((j.toNat : Nat) : Int) := by omega
  rw [hj]
  unfold newNodeRoutingTable addressBits
  rw [List.range_eq_range']
  exact lookup_rangeMap j.toNat 160 0 (by omega) (by omega)

/-- C10: on a node built by `NewNode`, whose routing table has a bucket for
every index in `[0, 159]`, `findNearestNode` never reaches its missing-bucket
panic: every offset returned by `getNextOffset` keeps `msb + offset` within
`[0, 159]`, so the routing-table lookup always succeeds. -/
theorem newNode_no_missing_bucket_panic :
    (∀ msb prev next : Int, 0 ≤ msb → msb ≤ 159 → getNextOffset msb prev = .ok next →
      0 ≤ msb + next ∧ msb + next ≤ 159) ∧
    (∀ target msb fuel, 0 ≤ msb → msb ≤ 159 →
      ∀ i, findNearestNode newNodeRoutingTable target msb 0 fuel ≠ .panicMissing i) := by
  refine ⟨fun msb prev next h1 h2 h3 => getNextOffset_ok_range msb prev next h1 h2 h3, ?_⟩
  intro target msb fuel h0 h159 i
  exact findNearestNode_no_panic newNodeRoutingTable
    (fun j hj0 hj159 => ⟨[], newNodeRoutingTable_lookup j hj0 hj159⟩) target fuel msb 0
    h0 h159 (by omega) (by omega) i

/-- Witness for C10 at concrete inputs. -/
theorem newNode_no_missing_bucket_panic_witness :
    (0 ≤ (80 : Int) + 1 ∧ (80 : Int) + 1 ≤ 159) ∧
    findNearestNode newNodeRoutingTable (List.replicate 20 0) 80 0 3 ≠ .panicMissing 80 :=
  ⟨newNode_no_missing_bucket_panic.1 80 0 1 (by decide) (by decide) (by rfl),
   newNode_no_missing_bucket_panic.2 (List.replicate 20 0) 80 3 (by decide) (by decide) 80⟩

/-! ## The offset walk enumerates every bucket: C4.

The walk from MSB `m` visits `m, m+1, m−1, m+2, m−2, …`; once one side of
`[0, 159]` is exhausted it continues monotonically on the other side and
stops when both are exhausted. The lemmas below evaluate `getNextOffset` in
each regime, then characterize the probed chain. -/

theorem gno_start_mid (m : Int) (h0 : 0 ≤ m) (h1 : m ≤ 158) :
    getNextOffset m 0 = .ok 1 := by
  simp only [getNextOffset]
  split_ifs with h1 h2 h3 <;>
    first | rfl | (simp only [Except.ok.injEq]; omega) | (exfalso; omega)

theorem gno_start_top : getNextOffset 159 0 = .ok (-1) := by rfl

theorem gno_asc (m v : Int) (h0 : 0 ≤ m) (hmv : m < v) (hub : m + v ≤ 158) :
    getNextOffset m v = .ok (v + 1) := by
  simp only [getNextOffset]
  rw [if_neg (show ¬ v ≤ 0 by omega)]
  split_ifs with h1 h2 h3 <;>
    first | rfl | (simp only [Except.ok.injEq]; omega) | (exfalso; omega)

theorem gno_asc_end (m v : Int) (h0 : 0 ≤ m) (hmv : m < v) (hub : m + v = 159) :
    getNextOffset m v = .error () := by
  simp only [getNextOffset]
  rw [if_neg (show ¬ v ≤ 0 by omega)]
  split_ifs with h1 h2 h3 <;>
    first | rfl | (simp only [Except.ok.injEq]; omega) | (exfalso; omega)

theorem gno_up2down (m v : Int) (hv : 1 ≤ v) (hvm : v ≤ m) (hub : m + v ≤ 159) :
    getNextOffset m v = .ok (-v) := by
  simp only [getNextOffset]
  rw [if_neg (show ¬ v ≤ 0 by omega)]
  split_ifs with h1 h2 h3 <;>
    first | rfl | (simp only [Except.ok.injEq]; omega) | (exfalso; omega)

theorem gno_down2up (m v : Int) (hv : 1 ≤ v) (hvm : v ≤ m) (hub : m + v ≤ 158) :
    getNextOffset m (-v) = .ok (v + 1) := by
  simp only [getNextOffset]
  rw [if_pos (show -v ≤ 0 by omega)]
  split_ifs with h1 h2 h3 <;>
    first | rfl | (simp only [Except.ok.injEq]; omega) | (exfalso; omega)

theorem gno_desc (m v : Int) (hv : 1 ≤ v) (hvm : v < m) (hlb : 159 ≤ m + v) :
    getNextOffset m (-v) = .ok (-(v + 1)) := by
  simp only [getNextOffset]
  rw [if_pos (show -v ≤ 0 by omega)]
  split_ifs with h1 h2 h3 <;>
    first | rfl | (simp only [Except.ok.injEq]; omega) | (exfalso; omega)

theorem gno_desc_end (m v : Int) (hv : 1 ≤ v) (hvm : v = m) (hlb : 159 ≤ m + v) :
    getNextOffset m (-v) = .error () := by
  simp only [getNextOffset]
  rw [if_pos (show -v ≤ 0 by omega)]
  split_ifs with h1 h2 h3 <;>
    first | rfl | (simp only [Except.ok.injEq]; omega) | (exfalso; omega)

/-- The probed indices as integers: elementwise cast of a list of naturals. -/
def natsToInts (l : List Nat) : List Int := l.map Nat.cast

theorem natsToInts_length (l : List Nat) : (natsToInts l).length = l.length := by
  rw [natsToInts, List.length_map]

/-- Step equation of the probed chain when the walk continues. -/
theorem probedChain_succ_ok {msb off nxt : Int} {f : Nat}
    (h : getNextOffset msb off = .ok nxt) :
    probedChain msb off (f + 1) = (msb + off) :: probedChain msb nxt f := by
  simp [probedChain, h]

/-- Step equation of the probed chain at the out-of-range stop. -/
theorem probedChain_succ_err {msb off : Int} {f : Nat}
    (h : getNextOffset msb off = .error ()) :
    probedChain msb off (f + 1) = [msb + off] := by
  simp [probedChain, h]

theorem natsToInts_nil : natsToInts [] = [] := rfl

theorem natsToInts_cons (a : Nat) (l : List Nat) :
    natsToInts (a :: l) = (a : Int) :: natsToInts l := rfl

theorem natsToInts_append (l1 l2 : List Nat) :
    natsToInts (l1 ++ l2) = natsToInts l1 ++ natsToInts l2 := by
  simp [natsToInts]

/-- Ascending tail of the walk: once the left side is exhausted (`m < v`),
the chain climbs `m+v, m+v+1, …, 159` and stops. -/
theorem chain_asc (m : Nat) :
    ∀ f v : Nat, m < v → m + v ≤ 159 → 160 - (m + v) ≤ f →
      probedChain (m : Int) (v : Int) f = natsToInts (List.range' (m + v) (160 - (m + v))) := by
  intro f
  induction f with
  | zero => intro v h1 h2 h3; omega
  | succ f ih =>
    intro v h1 h2 h3
    have hcast : ((m : Int)) + ((v : Int)) = ((m + v : Nat) : Int) := by omega
    by_cases hend : m + v = 159
    · have hg : getNextOffset (m : Int) (v : Int) = .error () :=
        gno_asc_end _ _ (by omega) (by omega) (by omega)
      simp only [probedChain, hg]
      have h1' : 160 - (m + v) = 1 := by omega
      rw [h1', hcast, List.range'_succ]
      rfl
    · have hg : getNextOffset (m : Int) (v : Int) = .ok ((v : Int) + 1) :=
        gno_asc _ _ (by omega) (by omega) (by omega)
      simp only [probedChain, hg]
      have hv1 : ((v : Int)) + 1 = ((v + 1 : Nat) : Int) := by omega
      rw [hv1, ih (v + 1) (by omega) (by omega) (by omega)]
      have h160 : 160 - (m + v) = (160 - (m + (v + 1))) + 1 := by omega
      rw [h160, List.range'_succ, natsToInts_cons, hcast]
      have hidx : m + v + 1 = m + (v + 1) := by omega
      rw [hidx]

/-- Descending tail of the walk: once the right side is exhausted
(`m + v ≥ 160`), the chain descends `m−v, m−v−1, …, 0` and stops; stated as
a permutation with `range (m−v+1)`. -/
theorem chain_desc (m : Nat) :
    ∀ f v : Nat, 1 ≤ v → v ≤ m → 160 ≤ m + v → m - v + 1 ≤ f →
      (probedChain (m : Int) (-(v : Int)) f).Perm (natsToInts (List.range (m - v + 1))) := by
  intro f
  induction f with
  | zero => intro v h1 h2 h3 h4; omega
  | succ f ih =>
    intro v h1 h2 h3 h4
    have hcast : ((m : Int)) + (-((v : Int))) = ((m - v : Nat) : Int) := by omega
    by_cases hend : v = m
    · have hg : getNextOffset (m : Int) (-(v : Int)) = .error () :=
        gno_desc_end _ _ (by omega) (by omega) (by omega)
      simp only [probedChain, hg]
      have h0 : m - v = 0 := by omega
      rw [hcast, h0]
      exact List.Perm.refl _
    · have hg : getNextOffset (m : Int) (-(v : Int)) = .ok (-((v + 1 : Nat) : Int)) :=
        gno_desc (m : Int) (v : Int) (by omega) (by omega) (by omega)
      simp only [probedChain, hg]
      have htail := ih (v + 1) (by omega) (by omega) (by omega) (by omega)
      have hsplit : m - v + 1 = (m - (v + 1) + 1) + 1 := by omega
      rw [hsplit, List.range_succ, natsToInts_append]
      have hlast : m - (v + 1) + 1 = m - v := by omega
      refine List.Perm.trans (htail.cons _) ?_
      rw [hcast, ← hlast]
      exact @List.perm_append_comm Int [((m - (v + 1) + 1 : Nat) : Int)]
        (natsToInts (List.range (m - (v + 1) + 1)))

/-- A head element is a permutation away from being the appended tail. -/
theorem perm_cons_append {α : Type} (x : α) (L : List α) : (x :: L).Perm (L ++ [x]) :=
  @List.perm_append_comm _ [x] L

/-- Alternating phase of the walk: from state `offset = +u` with the probe
`m+u` in range and the left cursor `m−u+1` not yet exhausted, the remaining
chain is a permutation of the unvisited right block `[m+u, 159]` and left
block `[0, m−u]`. -/
theorem chain_alt (m : Nat) :
    ∀ f u : Nat, 1 ≤ u → m + u ≤ 159 → u ≤ m + 1 →
      (160 - (m + u)) + (m + 1 - u) ≤ f →
      (probedChain (m : Int) (u : Int) f).Perm
        (natsToInts (List.range' (m + u) (160 - (m + u))) ++
          natsToInts (List.range (m + 1 - u))) := by
  intro f
  induction f using Nat.strong_induction_on with
  | _ f ih =>
    intro u h1 h2 h3 h4
    by_cases hcaseA : u = m + 1
    · have hA := chain_asc m f u (by omega) (by omega) (by omega)
      rw [hA]
      have hz : m + 1 - u = 0 := by omega
      rw [hz]
      simp [natsToInts]
    · have hum : u ≤ m := by omega
      obtain ⟨f2, rfl⟩ : ∃ f2, f = f2 + 2 := ⟨f - 2, by omega⟩
      have hg1 : getNextOffset (m : Int) (u : Int) = .ok (-(u : Int)) :=
        gno_up2down _ _ (by omega) (by omega) (by omega)
      simp only [probedChain, hg1]
      have e1 : ((m : Int)) + ((u : Int)) = ((m + u : Nat) : Int) := by omega
      have e2 : ((m : Int)) + (-((u : Int))) = ((m - u : Nat) : Int) := by omega
      by_cases hend : m + u = 159
      · by_cases hu : u = m
        · have hg2 : getNextOffset (m : Int) (-(u : Int)) = .error () :=
            gno_desc_end _ _ (by omega) (by omega) (by omega)
          simp only [probedChain, hg2]
          rw [e1, e2]
          have hr1 : 160 - (m + u) = 1 := by omega
          have hr2 : m + 1 - u = 1 := by omega
          have hr3 : m - u = 0 := by omega
          rw [hr1, hr2, hr3]
          exact List.Perm.refl _
        · have hg2 : getNextOffset (m : Int) (-(u : Int)) = .ok (-((u + 1 : Nat) : Int)) :=
            gno_desc (m : Int) (u : Int) (by omega) (by omega) (by omega)
          simp only [probedChain, hg2]
          have htail := chain_desc m f2 (u + 1) (by omega) (by omega) (by omega) (by omega)
          have hmu : m - (u + 1) + 1 = m - u := by omega
          rw [hmu] at htail
          rw [e1, e2]
          have hr1 : 160 - (m + u) = 1 := by omega
          have hr2 : m + 1 - u = (m - u) + 1 := by omega
          rw [hr1, hr2, List.range_succ, natsToInts_append]
          refine List.Perm.trans ((htail.cons _).cons _) ?_
          exact (perm_cons_append _ _).cons _
      · have hg2 : getNextOffset (m : Int) (-(u : Int)) = .ok (((u + 1 : Nat) : Int)) :=
          gno_down2up (m : Int) (u : Int) (by omega) (by omega) (by omega)
        simp only [probedChain, hg2]
        have hihtail := ih f2 (by omega) (u + 1) (by omega) (by omega) (by omega) (by omega)
        rw [e1, e2]
        have hr1 : 160 - (m + u) = (160 - (m + (u + 1))) + 1 := by omega
        have hr2 : m + 1 - u = (m - u) + 1 := by omega
        have hr3 : m + 1 - (u + 1) = m - u := by omega
        rw [hr3] at hihtail
        rw [hr1, hr2, List.range'_succ, natsToInts_cons, List.range_succ, natsToInts_append]
        have hidx : m + u + 1 = m + (u + 1) := by omega
        rw [hidx]
        refine List.Perm.trans ((hihtail.cons _).cons _) ?_
        refine List.Perm.cons _ ?_
        have hp := perm_cons_append (((m - u : Nat) : Int))
          (natsToInts (List.range' (m + (u + 1)) (160 - (m + (u + 1)))) ++
            natsToInts (List.range (m - u)))
        rwa [List.append_assoc] at hp

/-- When every probed bucket is empty and the walk ends by the out-of-range
error before the fuel runs out, `findNearestNode` returns the empty result
(Go's `nil, nil`). -/
theorem findNearestNode_all_empty (rt : List (Int × List nodeInfo)) (target : DAddr) :
    ∀ fuel (msb off : Int),
      (∀ j, j ∈ probedChain msb off fuel → List.lookup j rt = some ([] : List nodeInfo)) →
      (probedChain msb off fuel).length < fuel →
      findNearestNode rt target msb off fuel = .nofound := by
  intro fuel
  induction fuel with
  | zero =>
    intro msb off h hl
    simp [probedChain] at hl
  | succ f ih =>
    intro msb off h hl
    have hmem : (msb + off) ∈ probedChain msb off (f + 1) := by
      simp only [probedChain]
      cases getNextOffset msb off <;> simp
    have hb := h (msb + off) hmem
    simp only [findNearestNode, hb, List.length_nil, if_pos]
    cases hno : getNextOffset msb off with
    | error e => simp
    | ok nxt =>
      have hchain : probedChain msb off (f + 1) = (msb + off) :: probedChain msb nxt f := by
        simp [probedChain, hno]
      apply ih
      · intro j hj
        apply h
        rw [hchain]
        exact List.mem_cons_of_mem _ hj
      · rw [hchain] at hl
        simpa using hl

/-- The C4 start step for `m = 159`, stated on the cast form. -/
theorem gno_start_top_cast : getNextOffset (((159 : Nat) : Int)) 0 = .ok (-1) := by rfl

/-- C4: for every starting MSB index `m` in `[0, 159]`, the sequence of
bucket indices probed by the offset walk of `findNearestNode` (offsets
generated by `getNextOffset` starting from 0, clipped to `[0, 159]`) is a
permutation of `[0, 159]`: its length is 160, every bit index is visited
exactly once (so `getNextOffset` reports out-of-range after 160 probes,
before the fuel of 400 is consumed), and on the all-empty routing table
built by `NewNode` the search then returns the empty result. -/
theorem offsetWalk_enumerates (m : Nat) (hm : m ≤ 159) :
    (probedChain (m : Int) 0 400).Perm (natsToInts (List.range 160)) ∧
    (probedChain (m : Int) 0 400).length = 160 ∧
    (∀ i : Nat, i < 160 → (probedChain (m : Int) 0 400).count ((i : Int)) = 1) ∧
    ∀ target, findNearestNode newNodeRoutingTable target (m : Int) 0 400 = .nofound := by
  have hperm : (probedChain (m : Int) 0 400).Perm (natsToInts (List.range 160)) := by
    by_cases htop : m = 159
    · subst htop
      have htail := chain_desc 159 399 1 (by omega) (by omega) (by omega) (by omega)
      rw [show (400 : Nat) = 399 + 1 from rfl, probedChain_succ_ok gno_start_top_cast]
      rw [show (((159 : Nat) : Int)) + 0 = (((159 : Nat) : Int)) by omega]
      rw [show (160 : Nat) = 159 + 1 from rfl, List.range_succ, natsToInts_append]
      refine List.Perm.trans (htail.cons _) ?_
      exact perm_cons_append _ _
    · have hg : getNextOffset (m : Int) 0 = .ok 1 := gno_start_mid _ (by omega) (by omega)
      rw [show (400 : Nat) = 399 + 1 from rfl, probedChain_succ_ok hg]
      have halt := chain_alt m 399 1 (by omega) (by omega) (by omega) (by omega)
      rw [show m + 1 - 1 = m by omega, List.range_eq_range'] at halt
      rw [show ((m : Int)) + 0 = ((m : Int)) by omega]
      have hr : List.range' 0 m ++ List.range' m (160 - m) = List.range' 0 160 := by
        have hap := List.range'_append 0 m (160 - m) 1
        rw [show 0 + 1 * m = m by omega, show 160 - m + m = 160 by omega] at hap
        exact hap
      rw [List.range_eq_range', ← hr, natsToInts_append]
      rw [show 160 - m = (160 - (m + 1)) + 1 by omega, List.range'_succ, natsToInts_cons]
      refine List.Perm.trans (halt.cons _) ?_
      exact (List.Perm.cons _ List.perm_append_comm).trans (List.perm_middle).symm
  have hlen : (probedChain (m : Int) 0 400).length = 160 := by
    rw [hperm.length_eq, natsToInts_length, List.length_range]
  refine ⟨hperm, hlen, ?_, ?_⟩
  · intro i hi
    rw [hperm.count_eq]
    have hinj : Function.Injective (Nat.cast : Nat → Int) := fun a b hab => by omega
    have hcnt := List.count_map_of_injective (List.range 160) (Nat.cast : Nat → Int) hinj i
    rw [natsToInts, hcnt]
    exact List.count_eq_one_of_mem (List.nodup_range 160) (List.mem_range.mpr hi)
  · intro target
    apply findNearestNode_all_empty
    · intro j hj
      have : j ∈ natsToInts (List.range 160) := (hperm.mem_iff).mp hj
      obtain ⟨j', hj', rfl⟩ := List.mem_map.mp this
      have hj160 : j' < 160 := List.mem_range.mp hj'
      exact newNodeRoutingTable_lookup _ (by omega) (by omega)
    · rw [hlen]
      omega

/-- Witness for C4 at a concrete starting index. -/
theorem offsetWalk_enumerates_witness :
    (probedChain ((7 : Nat) : Int) 0 400).length = 160 ∧
    findNearestNode newNodeRoutingTable (List.replicate 20 0) ((7 : Nat) : Int) 0 400 =
      .nofound :=
  ⟨(offsetWalk_enumerates 7 (by omega)).2.1,
   (offsetWalk_enumerates 7 (by omega)).2.2.2 (List.replicate 20 0)⟩

/-! ## Nearest-peer selection: C5 -/

theorem lessThanEqual_cons_iff (a b : Nat) (as bs : List Nat) :
    lessThanEqual (a :: as) (b :: bs) = true ↔
      (a < b ∨ (a = b ∧ lessThanEqual as bs = true)) := by
  simp only [lessThanEqual]
  by_cases h1 : a < b
  · simp [h1]
  · by_cases h2 : b < a
    · simp only [if_neg h1, if_pos h2]
      constructor
      · intro hf; exact absurd hf (by simp)
      · rintro (h | ⟨h, _⟩) <;> omega
    · have hab : a = b := by omega
      simp [h1, h2, hab]

theorem lessThanEqual_total (x : List Nat) :
    ∀ y, lessThanEqual x y = true ∨ lessThanEqual y x = true := by
  induction x with
  | nil => intro y; left; rfl
  | cons a as ih =>
    intro y
    cases y with
    | nil => right; rfl
    | cons b bs =>
      by_cases h1 : a < b
      · left; rw [lessThanEqual_cons_iff]; exact Or.inl h1
      · by_cases h2 : b < a
        · right; rw [lessThanEqual_cons_iff]; exact Or.inl h2
        · have hab : a = b := by omega
          rcases ih bs with h | h
          · left; rw [lessThanEqual_cons_iff]; exact Or.inr ⟨hab, h⟩
          · right; rw [lessThanEqual_cons_iff]; exact Or.inr ⟨hab.symm, h⟩

theorem lessThanEqual_trans (x : List Nat) :
    ∀ y z, lessThanEqual x y = true → lessThanEqual y z = true →
      lessThanEqual x z = true := by
  induction x with
  | nil => intro y z _ _; rfl
  | cons a as ih =>
    intro y z hxy hyz
    cases y with
    | nil => exact absurd hxy (by simp [lessThanEqual])
    | cons b bs =>
      cases z with
      | nil => exact absurd hyz (by simp [lessThanEqual])
      | cons c cs =>
        rw [lessThanEqual_cons_iff] at hxy hyz ⊢
        rcases hxy with hab | ⟨hab, hxy2⟩ <;> rcases hyz with hbc | ⟨hbc, hyz2⟩
        · exact Or.inl (by omega)
        · exact Or.inl (by omega)
        · exact Or.inl (by omega)
        · exact Or.inr ⟨by omega, ih bs cs hxy2 hyz2⟩

instance (t : DAddr) : IsTotal nodeInfo (distLe t) :=
  ⟨fun a b => lessThanEqual_total (xorAddr a.dAddr t) (xorAddr b.dAddr t)⟩

instance (t : DAddr) : IsTrans nodeInfo (distLe t) :=
  ⟨fun _ _ _ hab hbc => lessThanEqual_trans _ _ _ hab hbc⟩

/-- When `findNearestNode` returns a peer list, the probed chain splits into
a prefix of empty buckets followed by the source bucket: the first non-empty
bucket visited. The returned peers are at most `alpha`, all drawn from that
bucket (a sublist `chosen` with complement `rest`), all of the bucket when
it holds fewer than `alpha` entries, and otherwise exactly `alpha` entries
(`ret.length = alpha`) whose XOR distance to the target is ≤ that of every
entry not returned. -/
theorem findNearestNode_found_spec (rt : List (Int × List nodeInfo)) (target : DAddr) :
    ∀ fuel (msb off : Int) ret,
      findNearestNode rt target msb off fuel = .found ret →
      ∃ pre i suf b,
        probedChain msb off fuel = pre ++ i :: suf ∧
        (∀ j ∈ pre, List.lookup j rt = some ([] : List nodeInfo)) ∧
        List.lookup i rt = some b ∧ b ≠ [] ∧
        ret.length ≤ alpha ∧
        ∃ chosen rest,
          ret = chosen.map (fun ni => ({ dAddr := ni.dAddr, nAddr := ni.nAddr } : NodeInfoMsg)) ∧
          (chosen ++ rest).Perm b ∧
          (b.length < alpha → chosen = b ∧ rest = []) ∧
          (alpha ≤ b.length → ret.length = alpha) ∧
          ∀ x ∈ chosen, ∀ y ∈ rest, distLe target x y := by
  intro fuel
  induction fuel with
  | zero =>
    intro msb off ret h
    simp [findNearestNode] at h
  | succ f ih =>
    intro msb off ret h
    cases hlook : List.lookup (msb + off) rt with
    | none => simp [findNearestNode, hlook] at h
    | some b =>
      by_cases hlen : b.length = 0
      · have hbnil : b = [] := List.length_eq_zero.mp hlen
        subst hbnil
        simp only [findNearestNode, hlook, List.length_nil, if_pos] at h
        cases hg : getNextOffset msb off with
        | error e =>
          rw [hg] at h
          simp at h
        | ok nxt =>
          rw [hg] at h
          obtain ⟨pre, i, suf, b, hchain, hpre, hib, hbne, hrest⟩ := ih msb nxt ret h
          refine ⟨(msb + off) :: pre, i, suf, b, ?_, ?_, hib, hbne, hrest⟩
          · rw [probedChain_succ_ok hg, hchain]
            rfl
          · intro j hj
            rcases List.mem_cons.mp hj with hj1 | hj2
            · rw [hj1]; exact hlook
            · exact hpre j hj2
      · have hsuf : ∃ s, probedChain msb off (f + 1) = (msb + off) :: s := by
          cases hg : getNextOffset msb off with
          | error e => exact ⟨[], probedChain_succ_err hg⟩
          | ok nxt => exact ⟨probedChain msb nxt f, probedChain_succ_ok hg⟩
        obtain ⟨suf, hchain⟩ := hsuf
        have hbne : b ≠ [] := fun hb => hlen (by rw [hb]; rfl)
        by_cases halpha : b.length < alpha
        · simp only [findNearestNode, hlook, if_neg hlen, if_pos halpha, FNRes.found.injEq] at h
          refine ⟨[], msb + off, suf, b, by simpa using hchain, by simp, hlook, hbne,
            ?_, b, [], h.symm, by simp, fun _ => ⟨rfl, rfl⟩, fun hab => absurd hab (by omega), ?_⟩
          · rw [← h, List.length_map]
            omega
          · intro x _ y hy
            simp at hy
        · simp only [findNearestNode, hlook, if_neg hlen, if_neg halpha, FNRes.found.injEq] at h
          refine ⟨[], msb + off, suf, b, by simpa using hchain, by simp, hlook, hbne, ?_,
            (List.insertionSort (distLe target) b).take alpha,
            (List.insertionSort (distLe target) b).drop alpha,
            h.symm, ?_, fun hlt => absurd hlt halpha, ?_, ?_⟩
          · rw [← h, List.length_map]
            exact le_trans (List.length_take_le ..) (le_refl _)
          · rw [List.take_append_drop]
            exact List.perm_insertionSort ..
          · intro hab
            rw [← h, List.length_map, List.length_take, List.length_insertionSort]
            omega
          · have hsorted : List.Sorted (distLe target)
                (List.insertionSort (distLe target) b) :=
              List.sorted_insertionSort ..
            rw [← List.take_append_drop alpha (List.insertionSort (distLe target) b)]
              at hsorted
            exact (List.pairwise_append.mp hsorted).2.2

/-- C5: when `findNode` returns a non-empty peer list, the list has at most
`alpha = 3` entries, all drawn from the first non-empty bucket of the offset
walk (the probed chain splits into empty buckets, then the source bucket):
all of that bucket when it has fewer than `alpha` entries, else exactly
`alpha` entries (`ret.length = alpha`) each of whose XOR distance to the
target is ≤ that of every non-returned entry of the source bucket. -/
theorem findNode_select (rt : List (Int × List nodeInfo)) (self target : DAddr)
    (ret : List NodeInfoMsg) (h : findNode rt self target = .ok ret) (hne : ret ≠ []) :
    ret.length ≤ alpha ∧
    ∃ pre i suf b,
      probedChain (getMostSignificantBit (xorAddr self target)) 0 fnFuel =
        pre ++ i :: suf ∧
      (∀ j ∈ pre, List.lookup j rt = some ([] : List nodeInfo)) ∧
      List.lookup i rt = some b ∧ b ≠ [] ∧
      ∃ chosen rest,
        ret = chosen.map (fun ni => ({ dAddr := ni.dAddr, nAddr := ni.nAddr } : NodeInfoMsg)) ∧
        (chosen ++ rest).Perm b ∧
        (b.length < alpha → chosen = b ∧ rest = []) ∧
        (alpha ≤ b.length → ret.length = alpha) ∧
        ∀ x ∈ chosen, ∀ y ∈ rest, distLe target x y := by
  unfold findNode at h
  by_cases hmsb : getMostSignificantBit (xorAddr self target) < 0
  · rw [if_pos hmsb] at h
    exact absurd h (by simp)
  · rw [if_neg hmsb] at h
    cases hfn : findNearestNode rt target (getMostSignificantBit (xorAddr self target)) 0 fnFuel with
    | found l =>
      rw [hfn] at h
      simp only [FindNodeRes.ok.injEq] at h
      subst h
      obtain ⟨pre, i, suf, b, hchain, hpre, hib, hbne, hlen, hrest⟩ :=
        findNearestNode_found_spec rt target fnFuel _ 0 l hfn
      exact ⟨hlen, pre, i, suf, b, hchain, hpre, hib, hbne, hrest⟩
    | nofound =>
      rw [hfn] at h
      simp only [FindNodeRes.ok.injEq] at h
      exact absurd h.symm hne
    | panicMissing i =>
      rw [hfn] at h
      exact absurd h (by simp)
    | fuelOut =>
      rw [hfn] at h
      exact absurd h (by simp)

/-- Four peers in bucket 152 for the C5 witness, at pairwise distinct XOR
distances from the all-zero target, listed out of distance order so that the
run exercises the sort-and-take branch. -/
def bucketC5 : List nodeInfo :=
  [ { dAddr := List.replicate 20 4, nAddr := [4], accessedAt := 0 },
    { dAddr := List.replicate 20 2, nAddr := [2], accessedAt := 0 },
    { dAddr := List.replicate 20 1, nAddr := [1], accessedAt := 0 },
    { dAddr := List.replicate 20 3, nAddr := [3], accessedAt := 0 } ]

/-- The reply of the C5 witness run: the `alpha = 3` peers of `bucketC5`
closest in XOR distance to the all-zero target, in ascending distance. -/
def retC5 : List NodeInfoMsg :=
  [ { dAddr := List.replicate 20 1, nAddr := [1] },
    { dAddr := List.replicate 20 2, nAddr := [2] },
    { dAddr := List.replicate 20 3, nAddr := [3] } ]

/-- Witness for C5 at a concrete four-peer bucket: the run returns exactly
`alpha` entries, the three closest to the target. -/
theorem findNode_select_witness :
    retC5.length ≤ alpha ∧
    ∃ pre i suf b,
      probedChain
          (getMostSignificantBit (xorAddr (1 :: List.replicate 19 0) (List.replicate 20 0)))
          0 fnFuel =
        pre ++ i :: suf ∧
      (∀ j ∈ pre, List.lookup j [(152, bucketC5)] = some ([] : List nodeInfo)) ∧
      List.lookup i [(152, bucketC5)] = some b ∧ b ≠ [] ∧
      ∃ chosen rest,
        retC5 = chosen.map (fun ni => ({ dAddr := ni.dAddr, nAddr := ni.nAddr } : NodeInfoMsg)) ∧
        (chosen ++ rest).Perm b ∧
        (b.length < alpha → chosen = b ∧ rest = []) ∧
        (alpha ≤ b.length → retC5.length = alpha) ∧
        ∀ x ∈ chosen, ∀ y ∈ rest, distLe (List.replicate 20 0) x y :=
  findNode_select [(152, bucketC5)] (1 :: List.replicate 19 0) (List.replicate 20 0)
    retC5 (by decide) (by decide)

/-! ## Query-engine merge, ranking and sort: C2 -/

instance (sm : List (Bytes × ScoreVal)) : IsTotal Item (byAvgDesc sm) :=
  ⟨fun a b => le_total (((List.lookup b.url sm).getD ⟨0, 0, 0⟩).avg)
    (((List.lookup a.url sm).getD ⟨0, 0, 0⟩).avg)⟩

instance (sm : List (Bytes × ScoreVal)) : IsTrans Item (byAvgDesc sm) :=
  ⟨fun _ _ _ h1 h2 => le_trans h2 h1⟩

/-- C2 (amended): when `GetIndex` replies with an item list, every entry of
the final score map carries `avg = sum / num`, and the returned list is
sorted by descending average score. No truncation is applied:
`maxNumGetItem` only pre-sizes the slice capacity (see the counterexample,
where 21 items are returned). -/
theorem getIndex_rank_and_sort (H : Bytes → DAddr) (st : NodeState) (msg : Bytes)
    (net : NetOracle) (now : Int) (out : List Item) (st' : NodeState)
    (sm : List (Bytes × ScoreVal))
    (h : getIndexCore H st msg net now = (.ok out, st', sm)) :
    (∀ u v, (u, v) ∈ sm → v.avg = v.sum / (v.num : ℚ)) ∧
    List.Sorted (byAvgDesc sm) out := by
  simp only [getIndexCore] at h
  cases hfi : findIndex st (H msg) with
  | internalErr => rw [hfi] at h; simp at h
  | panicked i => rw [hfi] at h; simp at h
  | fuelOut => rw [hfi] at h; simp at h
  | ok outc =>
    rw [hfi] at h
    cases outc with
    | nodeInfos infos =>
      simp only [Prod.mk.injEq, RpcOut.ok.injEq] at h
      obtain ⟨hout, _, hsm⟩ := h
      subst hsm
      subst hout
      refine ⟨?_, List.sorted_insertionSort ..⟩
      intro u v hm
      obtain ⟨⟨u2, p⟩, hp, heq⟩ := List.mem_map.mp hm
      rw [Prod.mk.injEq] at heq
      obtain ⟨hu, hv⟩ := heq
      subst hv
      rfl
    | items its =>
      cases hfn : findNode st.routingTable st.DAddr (H msg) with
      | collision => rw [hfn] at h; simp at h
      | panicked i => rw [hfn] at h; simp at h
      | fuelOut => rw [hfn] at h; simp at h
      | ok infos =>
        rw [hfn] at h
        simp only [Prod.mk.injEq, RpcOut.ok.injEq] at h
        obtain ⟨hout, _, hsm⟩ := h
        subst hsm
        subst hout
        refine ⟨?_, List.sorted_insertionSort ..⟩
        intro u v hm
        obtain ⟨⟨u2, p⟩, hp, heq⟩ := List.mem_map.mp hm
        rw [Prod.mk.injEq] at heq
        obtain ⟨hu, hv⟩ := heq
        subst hv
        rfl

/-- Witness for the amended C2 at a concrete run (one unreachable peer, no
local items). -/
theorem getIndex_rank_and_sort_witness :
    (∀ u v, (u, v) ∈ ([] : List (Bytes × ScoreVal)) → v.avg = v.sum / (v.num : ℚ)) ∧
    List.Sorted (byAvgDesc []) ([] : List Item) :=
  getIndex_rank_and_sort H0 st1 [4] net0 7 [] st1 [] (by decide)

/-- The reply items of a `GetIndex` result (empty on the error paths). -/
def okItems : RpcOut (List Item) → List Item
  | .ok l => l
  | _ => []

/-- 21 item records with distinct single-byte urls. -/
def items21 : List (DAddrStr × item) :=
  (List.range 21).map fun i =>
    ([i], { dAddrStr := [i], url := [i], title := [], edges := [],
            localRank := 0, rankComputedCount := 0 })

/-- The DHT entry holding the addresses of all 21 items. -/
def addrs21 : List DAddrStr := (List.range 21).map fun i => [i]

/-- Node state whose DHT holds 21 items under the queried index address. -/
def st21 : NodeState :=
  { DAddr := 1 :: List.replicate 19 0, routingTable := [(152, [peerNi])],
    dht := [(List.replicate 20 0, addrs21)], items := items21,
    difficulty := 0, certificate := selfCert, panicked := false }

/-- A `GetIndex` reply of the sorted-list shape has as many items as the
list fed to the sort. -/
theorem okItems_length_sorted (r : RpcOut (List Item)) (sm : List (Bytes × ScoreVal))
    (l : List Item) (h : r = .ok (List.insertionSort (byAvgDesc sm) l)) :
    (okItems r).length = l.length := by
  subst h
  simp [okItems, List.length_insertionSort]

/-- Counterexample to C2 as stated: a `GetIndex` reply holds 21 items,
exceeding `maxNumGetItem = 20` — the Go code passes `maxNumGetItem` only as
the initial slice capacity and never truncates the result. -/
theorem getIndex_no_truncation_counterexample :
    (okItems (getIndexCore H0 st21 [4] net0 0).1).length = 21 ∧
    maxNumGetItem < 21 := by
  refine ⟨(okItems_length_sorted _ _ _ rfl).trans ?_, by decide⟩
  decide

end Doogle
